import Mathlib

/-
Verification of the clip-tuple / frame-tuple sampling logic and the
permutation-order encoding of the video-clip-order-prediction repository.

The embedding covers:
* `order_class_index` from `train_vcop.py` (lines 26-33), together with the
  `itertools.permutations` enumeration it ranks against;
* the `UCF101VCOPDataset.__getitem__` sampling pipeline from
  `datasets/ucf101.py` (lines 229-298): decode-failure handling, the
  length guard, the `tuple_start` draw, the clip-window loop, the
  (optionally seeded) shuffle of the zipped (clip, order) list, and the
  per-clip seeded transform loop;
* the `UCF101FOPDataset.__getitem__` pipeline (lines 397-445) and both
  classes' `__init__` parameter handling.

Python's global `random` module is modelled as an explicit state: a stream
of raw natural-number draws plus a cursor.  `random.seed(s)` replaces the
state by a deterministic function of `s` alone; that function is an
arbitrary parameter `sg` (standing for the Mersenne-Twister seeding), so
every theorem quantifying over `sg` holds for the real generator.
Machine floats returned by `random.random()` are abstracted as the raw
natural drawn (only their role as later seed values matters here).
-/

/-- Python exceptions that the embedded code can raise: `ValueError`
(raised by `random.randint` on an empty range and by unpacking an empty
`zip`) and a decode failure raised by the frame source (`skvideo.io.vread`). -/
inductive PyError where
  | valueError : PyError
  | decodeError : PyError
deriving DecidableEq

/-- State of Python's global `random` module: an infinite stream of raw
draws and a cursor pointing at the next unconsumed draw. -/
structure RandomState where
  draws : ℕ → ℕ
  next : ℕ

/-- Embedding of `random.seed(s)`: the resulting generator state is a
function of the seed alone; `sg` is the (arbitrary) seeding family. -/
def seedState (sg : ℕ → ℕ → ℕ) (s : ℕ) : RandomState :=
  ⟨sg s, 0⟩

/-- Consume one raw draw from the stream. -/
def drawNat (rs : RandomState) : ℕ × RandomState :=
  (rs.draws rs.next, ⟨rs.draws, rs.next + 1⟩)

/-- Embedding of `random.randint(lo, hi)`: uniform on the inclusive range
`[lo, hi]`, raising `ValueError` when the range is empty (`hi < lo`),
exactly as CPython does.  The draw is reduced into the range by `%`. -/
def randint (rs : RandomState) (lo hi : ℤ) : Except PyError (ℤ × RandomState) :=
  if hi < lo then Except.error PyError.valueError
  else Except.ok (lo + ((drawNat rs).1 : ℤ) % (hi - lo + 1), (drawNat rs).2)

/-- Embedding of `random.random()`; the produced float is abstracted as the
raw draw (it is only ever used as a seed value downstream). -/
def randomFloat (rs : RandomState) : ℕ × RandomState :=
  drawNat rs

/-- Embedding of `random._randbelow(n)` as used by `random.shuffle`:
a draw reduced modulo `n`. -/
def randbelow (rs : RandomState) (n : ℕ) : ℕ × RandomState :=
  ((drawNat rs).1 % n, (drawNat rs).2)

/-- Exchange the elements at positions `i` and `j`, as the tuple
assignment `x[i], x[j] = x[j], x[i]` inside `random.shuffle` does. -/
def swapIdx {α : Type} [Inhabited α] (l : List α) (i j : ℕ) : List α :=
  (l.set i (l.getD j default)).set j (l.getD i default)

/-- One iteration of the `random.shuffle` loop body at index `i`:
draw `j` below `i + 1` and swap positions `i` and `j`. -/
def shuffleStep {α : Type} [Inhabited α] (p : List α × RandomState) (i : ℕ) :
    List α × RandomState :=
  (swapIdx p.1 i (randbelow p.2 (i + 1)).1, (randbelow p.2 (i + 1)).2)

/-- Embedding of `random.shuffle(x)`: Fisher-Yates over
`reversed(range(1, len(x)))`. -/
def shuffle {α : Type} [Inhabited α] (l : List α) (rs : RandomState) :
    List α × RandomState :=
  ((List.range' 1 (l.length - 1)).reverse).foldl shuffleStep (l, rs)

/-- Embedding of `itertools.permutations` restricted to lists of naturals,
with the fuel argument equal to the list length: the element at each
position is chosen by increasing index, then the remainder is permuted,
which reproduces the itertools emission order. -/
def permAux : ℕ → List ℕ → List (List ℕ)
  | 0, _ => [[]]
  | n + 1, l =>
      (List.range l.length).flatMap
        (fun i => (permAux n (l.eraseIdx i)).map (fun p => l.getD i 0 :: p))

/-- All permutations of `l` in `itertools.permutations` order. -/
def permutationsPy (l : List ℕ) : List (List ℕ) :=
  permAux l.length l

/-- Embedding of Python's `list.index` (first occurrence; `none` models the
`ValueError` raised when the element is absent). -/
def pyIndex (x : List ℕ) : List (List ℕ) → Option ℕ
  | [] => none
  | c :: rest => if c = x then some 0 else (pyIndex x rest).map (fun k => k + 1)

/-- Embedding of `order_class_index` (`train_vcop.py` lines 26-33): rank of
`order` inside `itertools.permutations(range(len(order)))`. -/
def order_class_index (order : List ℕ) : Option ℕ :=
  pyIndex order (permutationsPy (List.range order.length))

/-- Modelled from the spec: the repository has no `decode`; spec section 4.2
defines it as the inverse of `encode`, returning the `k`-th permutation of
the fixed enumeration for the given arity. -/
def decodePerm (n k : ℕ) : List ℕ :=
  (permutationsPy (List.range n)).getD k []

/-- Result of `UCF101VCOPDataset.__getitem__`: either the `[], []` sentinel
or a tuple of clips (each a list of frames) paired with order labels. -/
inductive SampleOut (F : Type) where
  | empty : SampleOut F
  | tuple (clips : List (List F)) (orders : List ℕ) : SampleOut F
deriving DecidableEq

/-- Required span of frames for one clip tuple
(`datasets/ucf101.py` line 212): `clip_len * tuple_len + interval * (tuple_len - 1)`. -/
def vcopTotalFrames (cl it tl : ℕ) : ℕ :=
  cl * tl + it * (tl - 1)

/-- Required span of frames in single-frame mode
(`datasets/ucf101.py` line 382): `tuple_len + interval * (tuple_len - 1)`. -/
def fopTotalFrames (it tl : ℕ) : ℕ :=
  tl + it * (tl - 1)

/-- The clip-window loop of `UCF101VCOPDataset.__getitem__` (lines 265-269):
emit `videodata[clip_start : clip_start + clip_len]` and advance the cursor
by `clip_len + interval`, `tl` times. -/
def buildClips {F : Type} (vd : List F) (cl it : ℕ) : ℕ → ℕ → List (List F)
  | 0, _ => []
  | n + 1, cs => ((vd.drop cs).take cl) :: buildClips vd cl it n (cs + cl + it)

/-- The frame-selection loop of `UCF101FOPDataset.__getitem__` (lines
421-424): emit `videodata[frame_idx]` and advance the cursor by `interval`
(the index stays in range on every reachable call, so `getD` never falls
back to its default there). -/
def fopFrames {F : Type} [Inhabited F] (vd : List F) (it : ℕ) : ℕ → ℕ → List F
  | 0, _ => []
  | n + 1, fi => vd.getD fi default :: fopFrames vd it n (fi + it)

/-- Embedding of `tuple_clip, tuple_order = zip(*clip_and_order)`
(line 278): unpacking `zip(*[])` raises a `ValueError` in Python. -/
def unzipPairs {α β : Type} (l : List (α × β)) : Except PyError (List α × List β) :=
  match l with
  | [] => Except.error PyError.valueError
  | _ => Except.ok l.unzip

/-- The inner frame loop of the per-clip transform block (lines 284-290):
every iteration first re-seeds the global generator with the clip's seed
`s` (discarding the incoming state) and then applies the transform, which
itself consumes random state. -/
def applySeeded {F : Type} (sg : ℕ → ℕ → ℕ) (tr : F → RandomState → F × RandomState)
    (s : ℕ) : List F → RandomState → List F × RandomState
  | [], rs => ([], rs)
  | fr :: rest, _ =>
      let r := tr fr (seedState sg s)
      let rest2 := applySeeded sg tr s rest r.2
      (r.1 :: rest2.1, rest2.2)

/-- One clip of the transform block (lines 283-293): draw one fresh seed
with `random.random()`, then transform every frame of the clip under it. -/
def transformClip {F : Type} (sg : ℕ → ℕ → ℕ) (tr : F → RandomState → F × RandomState)
    (clip : List F) (rs : RandomState) : List F × RandomState :=
  let s := randomFloat rs
  applySeeded sg tr s.1 clip s.2

/-- The whole transform block of `UCF101VCOPDataset.__getitem__`
(lines 280-294), over all clips of the tuple. -/
def transformTuple {F : Type} (sg : ℕ → ℕ → ℕ) (tr : F → RandomState → F × RandomState) :
    List (List F) → RandomState → List (List F) × RandomState
  | [], rs => ([], rs)
  | c :: cs, rs =>
      let r := transformClip sg tr c rs
      let rest := transformTuple sg tr cs r.2
      (r.1 :: rest.1, rest.2)

/-- The transform loop of `UCF101FOPDataset.__getitem__` (lines 435-441):
plain per-frame application, no re-seeding. -/
def fopTransform {F : Type} (tr : F → RandomState → F × RandomState) :
    List F → RandomState → List F × RandomState
  | [], rs => ([], rs)
  | f :: rest, rs =>
      let r := tr f rs
      let rest2 := fopTransform tr rest r.2
      (r.1 :: rest2.1, rest2.2)

/-- Lines 265-298 of `UCF101VCOPDataset.__getitem__`, from the clip-window
loop onwards: build the windows from the drawn `tuple_start`, zip them with
`range(tuple_len)`, shuffle (seeded with `idx` in evaluation mode, line
276), unpack, and optionally run the per-clip transform block. -/
def vcopAfterStart {F : Type} (sg : ℕ → ℕ → ℕ) (cl it tl : ℕ) (train : Bool)
    (tr : Option (F → RandomState → F × RandomState))
    (vd : List F) (idx : ℕ) (tsZ : ℤ) (rs1 : RandomState) :
    Except PyError (SampleOut F × RandomState) :=
  let windows := buildClips vd cl it tl tsZ.toNat
  let zipped := windows.zip (List.range tl)
  let sh := if train then shuffle zipped rs1 else shuffle zipped (seedState sg idx)
  match unzipPairs sh.1 with
  | Except.error e => Except.error e
  | Except.ok (clips, orders) =>
    match tr with
    | none => Except.ok (SampleOut.tuple clips orders, sh.2)
    | some f =>
        let tt := transformTuple sg f clips sh.2
        Except.ok (SampleOut.tuple tt.1 orders, tt.2)

/-- Embedding of `UCF101VCOPDataset.__getitem__` (lines 229-298).  `video`
is the frame source's result (`skvideo.io.vread` wrapped in `try/except`
at lines 248-251, so a decode failure becomes the `[], []` sentinel).  In
training mode a too-short video returns the sentinel (line 259); in
evaluation mode there is no length guard, the generator is seeded with
`idx` (line 262) before the `tuple_start` draw.  `tr` is the optional
per-frame transform. -/
def vcopGetItem {F : Type} (sg : ℕ → ℕ → ℕ) (cl it tl : ℕ) (train : Bool)
    (tr : Option (F → RandomState → F × RandomState))
    (video : Except PyError (List F)) (idx : ℕ) (rs : RandomState) :
    Except PyError (SampleOut F × RandomState) :=
  match video with
  | Except.error _ => Except.ok (SampleOut.empty, rs)
  | Except.ok vd =>
    let len := vd.length
    let total := vcopTotalFrames cl it tl
    match (if train then
             (if len < total then none
              else some (randint rs 0 ((len : ℤ) - total)))
           else some (randint (seedState sg idx) 0 ((len : ℤ) - total))) with
    | none => Except.ok (SampleOut.empty, rs)
    | some (Except.error e) => Except.error e
    | some (Except.ok (tsZ, rs1)) => vcopAfterStart sg cl it tl train tr vd idx tsZ rs1

/-- Embedding of `UCF101FOPDataset.__getitem__` (lines 397-445).  Unlike
the VCOP variant, the frame source call at line 408 is not wrapped in
`try/except` and there is no length guard, so a decode failure propagates
and a too-short video makes `randint` raise. -/
def fopGetItem {F : Type} [Inhabited F] (sg : ℕ → ℕ → ℕ) (it tl : ℕ) (train : Bool)
    (tr : Option (F → RandomState → F × RandomState))
    (video : Except PyError (List F)) (idx : ℕ) (rs : RandomState) :
    Except PyError ((List F × List ℕ) × RandomState) :=
  match video with
  | Except.error e => Except.error e
  | Except.ok vd =>
    let len := vd.length
    let total := fopTotalFrames it tl
    match (if train then randint rs 0 ((len : ℤ) - total)
           else randint (seedState sg idx) 0 ((len : ℤ) - total)) with
    | Except.error e => Except.error e
    | Except.ok (tsZ, rs1) =>
      let frames := fopFrames vd it tl tsZ.toNat
      let zipped := frames.zip (List.range tl)
      let sh := if train then shuffle zipped rs1 else shuffle zipped (seedState sg idx)
      match unzipPairs sh.1 with
      | Except.error e => Except.error e
      | Except.ok (fr, orders) =>
        match tr with
        | none => Except.ok ((fr, orders), sh.2)
        | some f =>
            let ft := fopTransform f fr sh.2
            Except.ok ((ft.1, orders), ft.2)

/-- Fields that `UCF101VCOPDataset.__init__` (lines 204-221) derives from
its numeric and mode parameters.  The split-file reads there depend only
on `root_dir` and the file system and are abstracted away. -/
structure VCOPDatasetState where
  clip_len : ℤ
  interval : ℤ
  tuple_len : ℤ
  train : Bool
  tuple_total_frames : ℤ
deriving DecidableEq

/-- Embedding of `UCF101VCOPDataset.__init__` (lines 204-221): the
parameters are stored and `tuple_total_frames` computed; the body contains
no validation of any parameter, so construction never fails on them. -/
def vcopDatasetInit (clip_len interval tuple_len : ℤ) (train : Bool) :
    Except PyError VCOPDatasetState :=
  Except.ok ⟨clip_len, interval, tuple_len, train,
    clip_len * tuple_len + interval * (tuple_len - 1)⟩

/-- Fields that `UCF101FOPDataset.__init__` (lines 375-389) derives from
its numeric and mode parameters. -/
structure FOPDatasetState where
  interval : ℤ
  tuple_len : ℤ
  train : Bool
  tuple_total_frames : ℤ
deriving DecidableEq

/-- Embedding of `UCF101FOPDataset.__init__` (lines 375-389): again no
parameter validation of any kind. -/
def fopDatasetInit (interval tuple_len : ℤ) (train : Bool) :
    Except PyError FOPDatasetState :=
  Except.ok ⟨interval, tuple_len, train, tuple_len + interval * (tuple_len - 1)⟩

/-- A concrete random-module state used by concrete evaluations: the raw
draw stream is the identity. -/
def idStream : RandomState :=
  ⟨fun k => k, 0⟩

/-- A concrete seeding family used by concrete evaluations. -/
def sgAdd : ℕ → ℕ → ℕ :=
  fun s k => s + k

/-- A concrete seeding family whose streams never repeat their seed,
used to exhibit distinct per-clip transform seeds. -/
def sgShift : ℕ → ℕ → ℕ :=
  fun s k => s + k + 1

/-- A recording transform over natural-number frames: it returns the frame
plus the next raw draw of the generator state it is applied under, and
consumes that draw. -/
def recTr : ℕ → RandomState → ℕ × RandomState :=
  fun fr st => (fr + st.draws st.next, ⟨st.draws, st.next + 1⟩)


/-- Removing the element at a valid position and re-consing it in front is
a permutation of the original list. -/
lemma getD_cons_eraseIdx_perm {α : Type} (d : α) :
    ∀ (l : List α) (i : ℕ), i < l.length → (l.getD i d :: l.eraseIdx i).Perm l := by
  intro l
  induction l with
  | nil => intro i h; simp at h
  | cons a t ih =>
    intro i h
    cases i with
    | zero => simp
    | succ k =>
      simp only [List.getD_cons_succ, List.eraseIdx_cons_succ]
      have hk : k < t.length := by simpa using Nat.lt_of_succ_lt_succ h
      exact (List.Perm.swap a (t.getD k d) (t.eraseIdx k)).trans ((ih k hk).cons a)

/-- The itertools enumeration of an `n`-element list has `n !` entries. -/
lemma permAux_length :
    ∀ (fuel : ℕ) (l : List ℕ), l.length = fuel →
      (permAux fuel l).length = Nat.factorial fuel := by
  intro fuel
  induction fuel with
  | zero => intro l _; simp [permAux]
  | succ n ih =>
    intro l hl
    simp only [permAux, List.length_flatMap]
    have h1 : ∀ i ∈ List.range l.length,
        (List.length ∘ fun i => (permAux n (l.eraseIdx i)).map (fun p => l.getD i 0 :: p)) i
          = Nat.factorial n := by
      intro i hi
      have hi' : i < l.length := List.mem_range.mp hi
      have hlen : (l.eraseIdx i).length = n := by
        rw [List.length_eraseIdx, if_pos hi', hl]
        simp
      simp [ih _ hlen]
    rw [List.map_congr_left h1, List.map_const', List.sum_replicate]
    simp [hl, Nat.factorial_succ]

/-- Every entry of the itertools enumeration is a permutation of the input. -/
lemma permAux_mem_perm :
    ∀ (fuel : ℕ) (l : List ℕ) (p : List ℕ), l.length = fuel →
      p ∈ permAux fuel l → p.Perm l := by
  intro fuel
  induction fuel with
  | zero =>
    intro l p hl hp
    rw [List.length_eq_zero.mp hl]
    rw [List.length_eq_zero.mp hl] at hp
    simp [permAux] at hp
    simp [hp]
  | succ n ih =>
    intro l p hl hp
    simp only [permAux, List.mem_flatMap, List.mem_map] at hp
    obtain ⟨i, hi, q, hq, rfl⟩ := hp
    have hi' : i < l.length := List.mem_range.mp hi
    have hlen : (l.eraseIdx i).length = n := by
      rw [List.length_eraseIdx, if_pos hi', hl]
      simp
    exact ((ih _ q hlen hq).cons _).trans (getD_cons_eraseIdx_perm 0 l i hi')

/-- Every permutation of the input occurs in the itertools enumeration. -/
lemma permAux_perm_mem :
    ∀ (fuel : ℕ) (l : List ℕ) (p : List ℕ), l.length = fuel →
      p.Perm l → p ∈ permAux fuel l := by
  intro fuel
  induction fuel with
  | zero =>
    intro l p hl hp
    rw [List.length_eq_zero.mp hl] at hp
    simp [permAux, List.perm_nil.mp hp]
  | succ n ih =>
    intro l p hl hp
    have hplen : p.length = n + 1 := by rw [hp.length_eq, hl]
    cases p with
    | nil => simp at hplen
    | cons a q =>
      obtain ⟨ha, hq⟩ := List.cons_perm_iff_perm_erase.mp hp
      have hi : List.indexOf a l < l.length := List.indexOf_lt_length.mpr ha
      have hgd : l.getD (List.indexOf a l) 0 = a := by
        rw [List.getD_eq_getElem _ _ hi]
        exact List.getElem_indexOf hi
      have her : l.eraseIdx (List.indexOf a l) = l.erase a :=
        List.eraseIdx_indexOf_eq_erase a l
      have hlen : (l.eraseIdx (List.indexOf a l)).length = n := by
        rw [List.length_eraseIdx, if_pos hi, hl]
        simp
      have hqmem : q ∈ permAux n (l.eraseIdx (List.indexOf a l)) :=
        ih _ q hlen (her ▸ hq)
      simp only [permAux, List.mem_flatMap]
      exact ⟨List.indexOf a l, List.mem_range.mpr hi,
        List.mem_map.mpr ⟨q, hqmem, by rw [hgd]⟩⟩

/-- For an input without duplicates the itertools enumeration has no
duplicate entries. -/
lemma permAux_nodup :
    ∀ (fuel : ℕ) (l : List ℕ), l.length = fuel → l.Nodup →
      (permAux fuel l).Nodup := by
  intro fuel
  induction fuel with
  | zero => intro l _ _; simp [permAux]
  | succ n ih =>
    intro l hl hnd
    simp only [permAux]
    rw [List.nodup_flatMap]
    constructor
    · intro i hi
      have hi' : i < l.length := List.mem_range.mp hi
      have hlen : (l.eraseIdx i).length = n := by
        rw [List.length_eraseIdx, if_pos hi', hl]
        simp
      exact List.Nodup.map (fun p q h => by injection h) (ih _ hlen (hnd.eraseIdx i))
    · refine (List.pairwise_lt_range l.length).imp_of_mem ?_
      intro a b hma hmb hab
      have hva : a < l.length := List.mem_range.mp hma
      have hvb : b < l.length := List.mem_range.mp hmb
      intro x hxa hxb
      obtain ⟨pa, _, hxa'⟩ := List.mem_map.mp hxa
      obtain ⟨pb, _, hxb'⟩ := List.mem_map.mp hxb
      have hheads : l.getD a 0 = l.getD b 0 := by
        have := hxa'.trans hxb'.symm
        injection this
      rw [List.getD_eq_getElem _ _ hva, List.getD_eq_getElem _ _ hvb] at hheads
      exact absurd ((hnd.getElem_inj_iff).mp hheads) (Nat.ne_of_lt hab)

/-- The first entry of the itertools enumeration is the input itself. -/
lemma permAux_head :
    ∀ (fuel : ℕ) (l : List ℕ), l.length = fuel →
      (permAux fuel l).head? = some l := by
  intro fuel
  induction fuel with
  | zero => intro l hl; rw [List.length_eq_zero.mp hl]; rfl
  | succ n ih =>
    intro l hl
    cases l with
    | nil => simp at hl
    | cons a t =>
      have ht : t.length = n := by simpa using hl
      have ihh := ih t ht
      obtain ⟨rest, hrest⟩ : ∃ rest, permAux n t = t :: rest := by
        cases hpa : permAux n t with
        | nil => rw [hpa] at ihh; simp at ihh
        | cons x xs =>
          rw [hpa] at ihh
          simp only [List.head?_cons, Option.some.injEq] at ihh
          exact ⟨xs, by rw [ihh]⟩
      have hlr : (a :: t).length = n + 1 := by simpa using hl
      simp only [permAux, hlr, List.range_succ_eq_map, List.flatMap_cons,
        List.eraseIdx_cons_zero, List.getD_cons_zero, hrest]
      simp

/-- When `pyIndex` reports position `i`, the list really holds the sought
element at position `i`. -/
lemma pyIndex_eq_some_getD :
    ∀ (L : List (List ℕ)) (x : List ℕ) (i : ℕ),
      pyIndex x L = some i → L.getD i [] = x := by
  intro L
  induction L with
  | nil => intro x i h; simp [pyIndex] at h
  | cons c rest ih =>
    intro x i h
    by_cases hc : c = x
    · simp only [pyIndex, if_pos hc, Option.some.injEq] at h
      rw [← h]
      simpa using hc
    · simp only [pyIndex, if_neg hc, Option.map_eq_some'] at h
      obtain ⟨k, hk, rfl⟩ := h
      simpa using ih x k hk

/-- On a duplicate-free list, `pyIndex` recovers the position of any entry. -/
lemma pyIndex_nodup_getD :
    ∀ (L : List (List ℕ)), L.Nodup → ∀ i, i < L.length →
      pyIndex (L.getD i []) L = some i := by
  intro L
  induction L with
  | nil => intro _ i hi; simp at hi
  | cons c rest ih =>
    intro hnd i hi
    obtain ⟨hc, hrest⟩ := List.nodup_cons.mp hnd
    cases i with
    | zero => simp [pyIndex]
    | succ k =>
      have hk : k < rest.length := by simpa using hi
      have hmem : rest.getD k [] ∈ rest := by
        rw [List.getD_eq_getElem _ _ hk]
        exact List.getElem_mem hk
      have hne : ¬ c = rest.getD k [] := fun he => hc (he ▸ hmem)
      rw [List.getD_cons_succ]
      simp only [pyIndex]
      rw [if_neg hne, ih hrest k hk]
      rfl

/-- Membership in the embedded itertools enumeration is exactly being a
permutation of the input list. -/
lemma mem_permutationsPy {l p : List ℕ} : p ∈ permutationsPy l ↔ p.Perm l :=
  ⟨permAux_mem_perm l.length l p rfl, permAux_perm_mem l.length l p rfl⟩

/-- Entry count of the embedded itertools enumeration. -/
lemma permutationsPy_length (l : List ℕ) :
    (permutationsPy l).length = Nat.factorial l.length :=
  permAux_length l.length l rfl

/-- The embedded itertools enumeration of a duplicate-free list is
duplicate-free. -/
lemma permutationsPy_nodup {l : List ℕ} (h : l.Nodup) : (permutationsPy l).Nodup :=
  permAux_nodup l.length l rfl h

/-- C2: the permutation encoder `order_class_index` is a bijection from the
permutations of `[0, n)` onto the class indices `[0, n!)` in the fixed
itertools enumeration order, and for every `tupleLen` in {2,3,4,5} the
spec-modelled `decodePerm` satisfies both round trips:
`encode (decode k) = k` on `[0, n!)` and `decode (encode p) = p` on every
permutation `p`. -/
theorem c2_order_class_bijection (n : ℕ) (hn : n ∈ ([2, 3, 4, 5] : List ℕ)) :
    (permutationsPy (List.range n)).length = Nat.factorial n
    ∧ (∀ p : List ℕ, p ∈ permutationsPy (List.range n) ↔ p.Perm (List.range n))
    ∧ (permutationsPy (List.range n)).Nodup
    ∧ (∀ k, k < Nat.factorial n → order_class_index (decodePerm n k) = some k)
    ∧ (∀ p ∈ permutationsPy (List.range n),
        ∃ r, order_class_index p = some r ∧ decodePerm n r = p) := by
  have hlen : (permutationsPy (List.range n)).length = Nat.factorial n := by
    rw [permutationsPy_length, List.length_range]
  have hnd : (permutationsPy (List.range n)).Nodup :=
    permutationsPy_nodup (List.nodup_range n)
  have hmemlen : ∀ p ∈ permutationsPy (List.range n), p.length = n := by
    intro p hp
    rw [(mem_permutationsPy.mp hp).length_eq, List.length_range]
  refine ⟨hlen, fun p => mem_permutationsPy, hnd, ?_, ?_⟩
  · intro k hk
    have hk' : k < (permutationsPy (List.range n)).length := by
      rw [hlen]
      exact hk
    have hdm : decodePerm n k ∈ permutationsPy (List.range n) := by
      rw [decodePerm, List.getD_eq_getElem _ _ hk']
      exact List.getElem_mem hk'
    have hdl : (decodePerm n k).length = n := hmemlen _ hdm
    simp only [order_class_index, hdl]
    simp only [decodePerm]
    exact pyIndex_nodup_getD _ hnd k hk'
  · intro p hp
    obtain ⟨i, hi, hig⟩ := List.mem_iff_getElem.mp hp
    refine ⟨i, ?_, ?_⟩
    · simp only [order_class_index, hmemlen p hp]
      rw [← hig, ← List.getD_eq_getElem _ [] hi]
      exact pyIndex_nodup_getD _ hnd i hi
    · rw [decodePerm, List.getD_eq_getElem _ _ hi, hig]

/-- Witness for C2: the full statement instantiated at arity 2. -/
theorem c2_order_class_bijection_witness :
    (permutationsPy (List.range 2)).length = Nat.factorial 2
    ∧ (∀ p : List ℕ, p ∈ permutationsPy (List.range 2) ↔ p.Perm (List.range 2))
    ∧ (permutationsPy (List.range 2)).Nodup
    ∧ (∀ k, k < Nat.factorial 2 → order_class_index (decodePerm 2 k) = some k)
    ∧ (∀ p ∈ permutationsPy (List.range 2),
        ∃ r, order_class_index p = some r ∧ decodePerm 2 r = p) :=
  c2_order_class_bijection 2 (by decide)

/-- C10: for every tuple length `n ≥ 1` the encoder maps the identity
order `[0, 1, ..., n-1]` to class index 0, because the identity permutation
heads the itertools enumeration. -/
theorem c10_identity_order_class_zero (n : ℕ) (hn : 1 ≤ n) :
    order_class_index (List.range n) = some 0 := by
  have hhead := permAux_head n (List.range n) (List.length_range n)
  simp only [order_class_index, List.length_range, permutationsPy] at *
  cases hL : permAux n (List.range n) with
  | nil =>
    rw [hL] at hhead
    simp at hhead
  | cons x xs =>
    rw [hL] at hhead
    simp only [List.head?_cons, Option.some.injEq] at hhead
    simp [pyIndex, hhead]

/-- Witness for C10 at tuple length 3. -/
theorem c10_identity_order_class_zero_witness :
    1 ≤ 3 ∧ order_class_index (List.range 3) = some 0 :=
  ⟨by decide, c10_identity_order_class_zero 3 (by decide)⟩

/-- Writing `a` over a valid position and re-consing the overwritten value
in front permutes consing `a` in front of the original list. -/
lemma getD_cons_set_perm {α : Type} [Inhabited α] :
    ∀ (t : List α) (m : ℕ) (a : α), m < t.length →
      (t.getD m default :: t.set m a).Perm (a :: t) := by
  intro t
  induction t with
  | nil => intro m a h; simp at h
  | cons x s ih =>
    intro m a h
    cases m with
    | zero =>
      simp only [List.getD_cons_zero, List.set_cons_zero]
      exact List.Perm.swap a x s
    | succ k =>
      simp only [List.getD_cons_succ, List.set_cons_succ]
      have hk : k < s.length := by simpa using h
      exact (List.Perm.swap x (s.getD k default) (s.set k a)).trans
        (((ih k a hk).cons x).trans (List.Perm.swap a x s))

/-- Swapping two valid positions yields a permutation of the list. -/
lemma swapIdx_perm {α : Type} [Inhabited α] :
    ∀ (l : List α) (i j : ℕ), i < l.length → j < l.length →
      (swapIdx l i j).Perm l := by
  intro l
  induction l with
  | nil => intro i j hi _; simp at hi
  | cons a t ih =>
    intro i j hi hj
    cases i with
    | zero =>
      cases j with
      | zero => simp [swapIdx]
      | succ m =>
        have hm : m < t.length := by simpa using hj
        simp only [swapIdx, List.getD_cons_zero, List.getD_cons_succ,
          List.set_cons_zero, List.set_cons_succ]
        exact getD_cons_set_perm t m a hm
    | succ k =>
      cases j with
      | zero =>
        have hk : k < t.length := by simpa using hi
        simp only [swapIdx, List.getD_cons_zero, List.getD_cons_succ,
          List.set_cons_zero, List.set_cons_succ]
        exact getD_cons_set_perm t k a hk
      | succ m =>
        have hk : k < t.length := by simpa using hi
        have hm : m < t.length := by simpa using hj
        simp only [swapIdx, List.getD_cons_succ, List.set_cons_succ]
        exact (ih k m hk hm).cons a

/-- The index drawn by `randbelow` for bound `i + 1` is at most `i`. -/
lemma randbelow_le (rs : RandomState) (i : ℕ) : (randbelow rs (i + 1)).1 ≤ i :=
  Nat.lt_succ_iff.mp (Nat.mod_lt _ (Nat.succ_pos i))

/-- Folding the shuffle step over in-range indices permutes the list. -/
lemma foldl_shuffleStep_perm {α : Type} [Inhabited α] :
    ∀ (xs : List ℕ) (acc : List α × RandomState),
      (∀ i ∈ xs, i < acc.1.length) →
      ((xs.foldl shuffleStep acc).1).Perm acc.1 := by
  intro xs
  induction xs with
  | nil => intro acc _; exact List.Perm.refl _
  | cons x rest ih =>
    intro acc hmem
    have hx : x < acc.1.length := hmem x (List.mem_cons_self x rest)
    have hj : (randbelow acc.2 (x + 1)).1 < acc.1.length :=
      lt_of_le_of_lt (randbelow_le _ _) hx
    have hstep : (shuffleStep acc x).1.Perm acc.1 := swapIdx_perm acc.1 x _ hx hj
    have hmem2 : ∀ i ∈ rest, i < (shuffleStep acc x).1.length := by
      intro i hi
      rw [hstep.length_eq]
      exact hmem i (List.mem_cons_of_mem x hi)
    simp only [List.foldl_cons]
    exact (ih (shuffleStep acc x) hmem2).trans hstep

/-- The embedded `random.shuffle` returns a permutation of its input. -/
lemma shuffle_perm {α : Type} [Inhabited α] (l : List α) (rs : RandomState) :
    ((shuffle l rs).1).Perm l := by
  apply foldl_shuffleStep_perm
  intro i hi
  rw [List.mem_reverse] at hi
  have h2 := List.mem_range'_1.mp hi
  show i < l.length
  omega

/-- Evaluation-mode unfolding of `vcopGetItem` on a successfully decoded
video: the prior random state is never consulted; the start draw comes
from the state seeded with `idx`. -/
lemma vcopGetItem_eval_ok {F : Type} (sg : ℕ → ℕ → ℕ) (cl it tl : ℕ)
    (tr : Option (F → RandomState → F × RandomState))
    (vd : List F) (idx : ℕ) (rs : RandomState) :
    vcopGetItem sg cl it tl false tr (Except.ok vd) idx rs
      = match randint (seedState sg idx) 0
          ((vd.length : ℤ) - (vcopTotalFrames cl it tl : ℕ)) with
        | Except.error e => Except.error e
        | Except.ok (tsZ, rs1) => vcopAfterStart sg cl it tl false tr vd idx tsZ rs1 := by
  cases hr : randint (seedState sg idx) 0
      ((vd.length : ℤ) - (vcopTotalFrames cl it tl : ℕ)) with
  | error e => simp [vcopGetItem, hr]
  | ok p => simp [vcopGetItem, hr]

/-- C3: evaluation-mode determinism.  With `train = false` the returned
sample (window contents and order labels alike) is the same for any two
prior global random states, because the generator is seeded with `idx`
immediately before the `tuple_start` draw and re-seeded with `idx` before
the shuffle. -/
theorem c3_eval_mode_determinism {F : Type} (sg : ℕ → ℕ → ℕ) (cl it tl : ℕ)
    (tr : Option (F → RandomState → F × RandomState))
    (video : Except PyError (List F)) (idx : ℕ) (rs1 rs2 : RandomState) :
    Except.map Prod.fst (vcopGetItem sg cl it tl false tr video idx rs1)
      = Except.map Prod.fst (vcopGetItem sg cl it tl false tr video idx rs2) := by
  cases video with
  | error e => rfl
  | ok vd => rw [vcopGetItem_eval_ok, vcopGetItem_eval_ok]

/-- C4 (code bug): in training mode a 20-frame video under config
`(clip_len, interval, tuple_len) = (8, 4, 3)` (required span 32) yields
the `[], []` sentinel, but in evaluation mode the same video makes the
sampler raise `ValueError` from `random.randint(0, -12)`, because the
`length < tuple_total_frames` guard exists only in the training branch. -/
theorem c4_short_video_eval_crash :
    vcopGetItem sgAdd 8 4 3 true none (Except.ok (List.range 20)) 0 idStream
      = Except.ok (SampleOut.empty, idStream)
    ∧ vcopGetItem sgAdd 8 4 3 false none (Except.ok (List.range 20)) 5 idStream
      = (Except.error PyError.valueError :
          Except PyError (SampleOut ℕ × RandomState)) :=
  ⟨rfl, rfl⟩

/-- C5 (counterexample): a decode failure in `UCF101FOPDataset.__getitem__`
is not reported as the empty sentinel; the exception propagates to the
caller, since line 408 has no `try/except`. -/
theorem c5_counterexample_fop_decode_raises :
    fopGetItem sgAdd 4 3 true none (Except.error PyError.decodeError) 0 idStream
      = (Except.error PyError.decodeError :
          Except PyError ((List ℕ × List ℕ) × RandomState))
    ∧ (fopGetItem sgAdd 4 3 true none
        (Except.error PyError.decodeError) 0 idStream
        : Except PyError ((List ℕ × List ℕ) × RandomState)).isOk = false :=
  ⟨rfl, rfl⟩

/-- C5 (amended): the sentinel-on-decode-failure policy holds for the
clip-tuple dataset (`UCF101VCOPDataset`, whose `vread` call is wrapped in
`try/except`), while the frame-tuple dataset (`UCF101FOPDataset`)
propagates the decode exception unchanged. -/
theorem c5_amended_sentinel_vcop_only {F : Type} [Inhabited F] (sg : ℕ → ℕ → ℕ)
    (e : PyError) (cl it tl : ℕ) (train : Bool)
    (tr : Option (F → RandomState → F × RandomState)) (idx : ℕ) (rs : RandomState) :
    vcopGetItem sg cl it tl train tr (Except.error e) idx rs
      = Except.ok (SampleOut.empty, rs)
    ∧ fopGetItem sg it tl train tr (Except.error e) idx rs = Except.error e :=
  ⟨rfl, rfl⟩

/-- C7 (code bug): `tuple_total_frames` is computed as
`tuple_len + interval * (tuple_len - 1)` (line 382), but the selection loop
(lines 421-424) advances the cursor by `interval`, not `1 + interval`:
with `interval = 4, tuple_len = 3, tuple_start = 0` the selected frames
are `[0, 4, 8]`, not the `[0, 5, 10]` the claim describes, and these
frames flow unchanged into the item returned in training mode. -/
theorem c7_frame_cursor_divergence :
    fopTotalFrames 4 3 = 3 + 4 * (3 - 1)
    ∧ fopFrames (List.range 20) 4 3 0 = [0, 4, 8]
    ∧ fopFrames (List.range 20) 4 3 0 ≠ [0, 5, 10]
    ∧ Except.map Prod.fst
        (fopGetItem sgAdd 4 3 true none (Except.ok (List.range 20)) 0 idStream)
        = Except.ok ([8, 0, 4], [2, 0, 1]) :=
  ⟨rfl, by decide, by decide, rfl⟩

/-- C9 (counterexample): constructing the datasets with non-positive
`clip_len` and `tuple_len` and a negative `interval` succeeds; `__init__`
performs no parameter validation at all. -/
theorem c9_counterexample_invalid_config_accepted :
    vcopDatasetInit 0 (-1) 0 true = Except.ok ⟨0, -1, 0, true, 1⟩
    ∧ fopDatasetInit (-1) 0 true = Except.ok ⟨-1, 0, true, 1⟩ := by
  constructor
  · show _ = Except.ok (⟨0, -1, 0, true, 1⟩ : VCOPDatasetState)
    simp [vcopDatasetInit]
  · show _ = Except.ok (⟨-1, 0, true, 1⟩ : FOPDatasetState)
    simp [fopDatasetInit]

/-- C9 (amended): both dataset constructors accept every parameter
combination, storing the fields as given and computing the total-frame
span; invalid configurations are never rejected at construction time. -/
theorem c9_amended_init_never_rejects (cl it tl : ℤ) (train : Bool) :
    vcopDatasetInit cl it tl train
      = Except.ok ⟨cl, it, tl, train, cl * tl + it * (tl - 1)⟩
    ∧ fopDatasetInit it tl train
      = Except.ok ⟨it, tl, train, tl + it * (tl - 1)⟩ :=
  ⟨rfl, rfl⟩

/-- The clip-window loop is the map of the window slice over `range tl`:
the `i`-th emitted window starts at `cs + i * (cl + it)`. -/
lemma buildClips_eq_map {F : Type} (vd : List F) (cl it : ℕ) :
    ∀ (n cs : ℕ), buildClips vd cl it n cs
      = (List.range n).map (fun i => (vd.drop (cs + i * (cl + it))).take cl) := by
  intro n
  induction n with
  | zero => intro cs; simp [buildClips]
  | succ m ih =>
    intro cs
    rw [List.range_succ_eq_map]
    simp only [buildClips, List.map_cons, List.map_map]
    congr 1
    · norm_num
    · rw [ih (cs + cl + it)]
      apply List.map_congr_left
      intro a _
      simp only [Function.comp_apply, Nat.succ_eq_add_one]
      congr 2
      ring

/-- Zipping a mapped range with the range itself pairs each value with its
index. -/
lemma zip_map_range {β : Type} (w : ℕ → β) (n : ℕ) :
    ((List.range n).map w).zip (List.range n)
      = (List.range n).map (fun i => (w i, i)) := by
  have h := List.zip_map' w id (List.range n)
  simpa using h

/-- Unzipping the shuffle of an index-paired list: the output clips keep
their original index attached, whatever permutation the shuffle produced. -/
lemma shuffled_zip_spec {F : Type} (w : ℕ → List F) (tl : ℕ) (rsS : RandomState)
    (htl : 1 ≤ tl) :
    ∃ clips orders,
      unzipPairs ((shuffle (((List.range tl).map w).zip (List.range tl)) rsS).1)
        = Except.ok (clips, orders)
      ∧ clips = ((shuffle (((List.range tl).map w).zip (List.range tl)) rsS).1).map Prod.fst
      ∧ orders = ((shuffle (((List.range tl).map w).zip (List.range tl)) rsS).1).map Prod.snd
      ∧ clips.length = tl
      ∧ orders.Perm (List.range tl)
      ∧ ∀ k, k < tl → clips.getD k [] = w (orders.getD k 0) := by
  rw [zip_map_range]
  have hperm := shuffle_perm ((List.range tl).map (fun i => (w i, i))) rsS
  have hlen : (shuffle ((List.range tl).map (fun i => (w i, i))) rsS).1.length = tl := by
    rw [hperm.length_eq, List.length_map, List.length_range]
  refine ⟨_, _, ?_, rfl, rfl, ?_, ?_, ?_⟩
  · cases hsh : (shuffle ((List.range tl).map (fun i => (w i, i))) rsS).1 with
    | nil =>
      rw [hsh] at hlen
      simp at hlen
      omega
    | cons y ys =>
      simp [unzipPairs, List.unzip_eq_map]
  · rw [List.length_map, hlen]
  · have hsnd : (((List.range tl).map (fun i => (w i, i))).map Prod.snd) = List.range tl := by
      simp [Function.comp_def]
    have h4 := hperm.map Prod.snd
    rw [hsnd] at h4
    exact h4
  · intro k hk
    have hk0 : k < (shuffle ((List.range tl).map (fun i => (w i, i))) rsS).1.length := by
      rw [hlen]
      exact hk
    have hk1 : k < ((shuffle ((List.range tl).map (fun i => (w i, i))) rsS).1.map Prod.fst).length := by
      rw [List.length_map]
      exact hk0
    have hk2 : k < ((shuffle ((List.range tl).map (fun i => (w i, i))) rsS).1.map Prod.snd).length := by
      rw [List.length_map]
      exact hk0
    rw [List.getD_eq_getElem _ _ hk1, List.getD_eq_getElem _ _ hk2,
      List.getElem_map, List.getElem_map]
    have hmem : (shuffle ((List.range tl).map (fun i => (w i, i))) rsS).1[k]
        ∈ (List.range tl).map (fun i => (w i, i)) :=
      hperm.mem_iff.mp (List.getElem_mem hk0)
    obtain ⟨i, _, hie⟩ := List.mem_map.mp hmem
    rw [← hie]

/-- The projection of `vcopAfterStart` with no transform: the sample always
succeeds for positive arity, the labels are a permutation of the range, and
each returned clip is the window at its own label's position. -/
lemma vcopAfterStart_spec {F : Type} (sg : ℕ → ℕ → ℕ) (cl it tl : ℕ) (train : Bool)
    (vd : List F) (idx : ℕ) (tsZ : ℤ) (rs1 : RandomState) (htl : 1 ≤ tl) :
    ∃ clips orders rsOut,
      vcopAfterStart sg cl it tl train none vd idx tsZ rs1
        = Except.ok (SampleOut.tuple clips orders, rsOut)
      ∧ clips.length = tl
      ∧ orders.Perm (List.range tl)
      ∧ ∀ k, k < tl → clips.getD k []
          = (vd.drop (tsZ.toNat + orders.getD k 0 * (cl + it))).take cl := by
  obtain ⟨clips, orders, hunzip, _, _, hclen, hoperm, hpair⟩ :=
    shuffled_zip_spec (fun i => (vd.drop (tsZ.toNat + i * (cl + it))).take cl) tl
      (if train then rs1 else seedState sg idx) htl
  refine ⟨clips, orders,
    (shuffle (((List.range tl).map (fun i => (vd.drop (tsZ.toNat + i * (cl + it))).take cl)).zip
      (List.range tl)) (if train then rs1 else seedState sg idx)).2,
    ?_, hclen, hoperm, hpair⟩
  have hcomm : (if train then
        shuffle ((buildClips vd cl it tl tsZ.toNat).zip (List.range tl)) rs1
      else shuffle ((buildClips vd cl it tl tsZ.toNat).zip (List.range tl)) (seedState sg idx))
      = shuffle ((buildClips vd cl it tl tsZ.toNat).zip (List.range tl))
          (if train then rs1 else seedState sg idx) := by
    cases train <;> rfl
  simp only [vcopAfterStart]
  rw [hcomm, buildClips_eq_map vd cl it tl tsZ.toNat, hunzip]

/-- With a non-negative upper bound, `randint(0, hi)` succeeds and lands in
`[0, hi]`. -/
lemma randint_nonneg_spec (rs : RandomState) (hi : ℤ) (h : 0 ≤ hi) :
    ∃ v rs1, randint rs 0 hi = Except.ok (v, rs1)
      ∧ 0 ≤ v ∧ v ≤ hi ∧ v.toNat ≤ hi.toNat := by
  have hlt := Int.emod_lt_of_pos ((drawNat rs).1 : ℤ) (show (0:ℤ) < hi + 1 by omega)
  have hnn := Int.emod_nonneg ((drawNat rs).1 : ℤ) (show hi + 1 ≠ 0 by omega)
  refine ⟨((drawNat rs).1 : ℤ) % (hi + 1), (drawNat rs).2, ?_, hnn, by omega, by omega⟩
  simp only [randint, if_neg (not_lt.mpr h)]
  norm_num

/-- Training-mode unfolding of `vcopGetItem` when the video is long enough:
the guard passes and the start is drawn from the prior global state. -/
lemma vcopGetItem_train_ok {F : Type} (sg : ℕ → ℕ → ℕ) (cl it tl : ℕ)
    (tr : Option (F → RandomState → F × RandomState))
    (vd : List F) (idx : ℕ) (rs : RandomState)
    (h : ¬ vd.length < vcopTotalFrames cl it tl) :
    vcopGetItem sg cl it tl true tr (Except.ok vd) idx rs
      = match randint rs 0 ((vd.length : ℤ) - (vcopTotalFrames cl it tl : ℕ)) with
        | Except.error e => Except.error e
        | Except.ok (tsZ, rs1) => vcopAfterStart sg cl it tl true tr vd idx tsZ rs1 := by
  cases hr : randint rs 0 ((vd.length : ℤ) - (vcopTotalFrames cl it tl : ℕ)) with
  | error e => simp [vcopGetItem, h, hr]
  | ok p => simp [vcopGetItem, h, hr]

/-- Mode-uniform unfolding of `vcopGetItem` on a long-enough video: the
start draw consumes the prior state in training mode and the `idx`-seeded
state in evaluation mode. -/
lemma vcopGetItem_ok_unfold {F : Type} (sg : ℕ → ℕ → ℕ) (cl it tl : ℕ) (train : Bool)
    (tr : Option (F → RandomState → F × RandomState))
    (vd : List F) (idx : ℕ) (rs : RandomState)
    (h : ¬ vd.length < vcopTotalFrames cl it tl) :
    vcopGetItem sg cl it tl train tr (Except.ok vd) idx rs
      = match randint (if train then rs else seedState sg idx) 0
            ((vd.length : ℤ) - (vcopTotalFrames cl it tl : ℕ)) with
        | Except.error e => Except.error e
        | Except.ok (tsZ, rs1) => vcopAfterStart sg cl it tl train tr vd idx tsZ rs1 := by
  cases train
  · exact vcopGetItem_eval_ok sg cl it tl tr vd idx rs
  · exact vcopGetItem_train_ok sg cl it tl tr vd idx rs h

/-- On a long-enough video with a successful start draw, `vcopGetItem` is
exactly `vcopAfterStart` at the drawn start. -/
lemma vcopGetItem_ok_start {F : Type} (sg : ℕ → ℕ → ℕ) (cl it tl : ℕ) (train : Bool)
    (tr : Option (F → RandomState → F × RandomState))
    (vd : List F) (idx : ℕ) (rs : RandomState) (v : ℤ) (rs1 : RandomState)
    (h : ¬ vd.length < vcopTotalFrames cl it tl)
    (hre : randint (if train then rs else seedState sg idx) 0
        ((vd.length : ℤ) - (vcopTotalFrames cl it tl : ℕ)) = Except.ok (v, rs1)) :
    vcopGetItem sg cl it tl train tr (Except.ok vd) idx rs
      = vcopAfterStart sg cl it tl train tr vd idx v rs1 := by
  rw [vcopGetItem_ok_unfold sg cl it tl train tr vd idx rs h, hre]

/-- For a start within the admissible range every window fits inside the
video. -/
lemma window_bound (cl it tl ts len : ℕ) (htl : 1 ≤ tl)
    (hts : ts ≤ len - vcopTotalFrames cl it tl)
    (htot : vcopTotalFrames cl it tl ≤ len) :
    ∀ i, i < tl → ts + i * (cl + it) + cl ≤ len := by
  intro i hi
  have h1 : i * (cl + it) ≤ (tl - 1) * (cl + it) :=
    Nat.mul_le_mul_right _ (by omega)
  have h2 : (tl - 1) * (cl + it) + cl = vcopTotalFrames cl it tl := by
    obtain ⟨m, rfl⟩ : ∃ m, tl = m + 1 := ⟨tl - 1, by omega⟩
    simp [vcopTotalFrames]
    ring
  calc ts + i * (cl + it) + cl
      ≤ ts + (tl - 1) * (cl + it) + cl :=
        Nat.add_le_add_right (Nat.add_le_add_left h1 ts) cl
    _ = ts + ((tl - 1) * (cl + it) + cl) := by rw [Nat.add_assoc]
    _ = ts + vcopTotalFrames cl it tl := by rw [h2]
    _ ≤ (len - vcopTotalFrames cl it tl) + vcopTotalFrames cl it tl :=
        Nat.add_le_add_right hts _
    _ = len := Nat.sub_add_cancel htot

/-- Windows drawn with stride `cl + it` are pairwise non-overlapping. -/
lemma window_disjoint (cl it ts : ℕ) :
    ∀ i j, i < j → ts + i * (cl + it) + cl ≤ ts + j * (cl + it) := by
  intro i j hij
  have h1 : (i + 1) * (cl + it) ≤ j * (cl + it) := Nat.mul_le_mul_right _ hij
  have h2 : i * (cl + it) + cl ≤ (i + 1) * (cl + it) := by
    rw [Nat.succ_mul]
    exact Nat.add_le_add_left (Nat.le_add_right cl it) _
  calc ts + i * (cl + it) + cl = ts + (i * (cl + it) + cl) := by rw [Nat.add_assoc]
    _ ≤ ts + (i + 1) * (cl + it) := Nat.add_le_add_left h2 ts
    _ ≤ ts + j * (cl + it) := Nat.add_le_add_left h1 ts

/-- A window that fits inside the video has exactly `cl` frames. -/
lemma window_length {F : Type} (vd : List F) (cl s : ℕ) (h : s + cl ≤ vd.length) :
    ((vd.drop s).take cl).length = cl := by
  rw [List.length_take, List.length_drop]
  omega

/-- C1: for every long-enough video, in both modes, the sampler draws
`tupleStart` in `[0, length - totalFramesNeeded]` and returns exactly
`tupleLen` windows of `clipLen` frames, the `i`-th original window starting
at `tupleStart + i * (clipLen + interval)`; the windows are pairwise
non-overlapping and lie within the video, and each returned clip is the
window at its own order label's position. -/
theorem c1_clip_tuple_sampling {F : Type} (sg : ℕ → ℕ → ℕ) (vd : List F)
    (cl it tl : ℕ) (train : Bool) (idx : ℕ) (rs : RandomState)
    (htl : 1 ≤ tl) (hlen : vcopTotalFrames cl it tl ≤ vd.length) :
    ∃ ts clips orders rsOut,
      vcopGetItem sg cl it tl train none (Except.ok vd) idx rs
        = Except.ok (SampleOut.tuple clips orders, rsOut)
      ∧ ts ≤ vd.length - vcopTotalFrames cl it tl
      ∧ clips.length = tl
      ∧ orders.Perm (List.range tl)
      ∧ buildClips vd cl it tl ts
          = (List.range tl).map (fun i => (vd.drop (ts + i * (cl + it))).take cl)
      ∧ (∀ k, k < tl → clips.getD k []
          = (vd.drop (ts + orders.getD k 0 * (cl + it))).take cl)
      ∧ (∀ i, i < tl → ((vd.drop (ts + i * (cl + it))).take cl).length = cl)
      ∧ (∀ i, i < tl → ts + i * (cl + it) + cl ≤ vd.length)
      ∧ (∀ i j, i < j → j < tl → ts + i * (cl + it) + cl ≤ ts + j * (cl + it)) := by
  have hnl : ¬ vd.length < vcopTotalFrames cl it tl := not_lt.mpr hlen
  have h0 : (0:ℤ) ≤ (vd.length : ℤ) - (vcopTotalFrames cl it tl : ℕ) := by omega
  obtain ⟨v, rs1, hre, hv0, hvhi, hvt⟩ :=
    randint_nonneg_spec (if train then rs else seedState sg idx) _ h0
  have hts : v.toNat ≤ vd.length - vcopTotalFrames cl it tl := by omega
  obtain ⟨clips, orders, rsOut, hafter, hclen, hoperm, hpair⟩ :=
    vcopAfterStart_spec sg cl it tl train vd idx v rs1 htl
  exact ⟨v.toNat, clips, orders, rsOut,
    (vcopGetItem_ok_start sg cl it tl train none vd idx rs v rs1 hnl hre).trans hafter,
    hts, hclen, hoperm, buildClips_eq_map vd cl it tl v.toNat, hpair,
    fun i hi => window_length vd cl _ (window_bound cl it tl v.toNat vd.length htl hts hlen i hi),
    window_bound cl it tl v.toNat vd.length htl hts hlen,
    fun i j hij _ => window_disjoint cl it v.toNat i j hij⟩

/-- Witness for C1: the spec's concrete instance `length = 40`,
`clipLen = 8`, `interval = 4`, `tupleLen = 3` (so `totalFramesNeeded = 32`
and `tupleStart ≤ 8`), in training mode. -/
theorem c1_clip_tuple_sampling_witness :
    1 ≤ 3
    ∧ vcopTotalFrames 8 4 3 ≤ (List.range 40).length
    ∧ (∃ ts clips orders rsOut,
        vcopGetItem sgAdd 8 4 3 true none (Except.ok (List.range 40)) 0 idStream
          = Except.ok (SampleOut.tuple clips orders, rsOut)
        ∧ ts ≤ (List.range 40).length - vcopTotalFrames 8 4 3
        ∧ clips.length = 3
        ∧ orders.Perm (List.range 3)
        ∧ buildClips (List.range 40) 8 4 3 ts
            = (List.range 3).map (fun i => ((List.range 40).drop (ts + i * (8 + 4))).take 8)
        ∧ (∀ k, k < 3 → clips.getD k []
            = ((List.range 40).drop (ts + orders.getD k 0 * (8 + 4))).take 8)
        ∧ (∀ i, i < 3 → (((List.range 40).drop (ts + i * (8 + 4))).take 8).length = 8)
        ∧ (∀ i, i < 3 → ts + i * (8 + 4) + 8 ≤ (List.range 40).length)
        ∧ (∀ i j, i < j → j < 3 → ts + i * (8 + 4) + 8 ≤ ts + j * (8 + 4))) :=
  ⟨by decide, by decide,
    c1_clip_tuple_sampling sgAdd (List.range 40) 8 4 3 true 0 idStream
      (by decide) (by decide)⟩

/-- Training-mode short-circuit of `vcopGetItem`: a too-short video returns
the sentinel (line 259). -/
lemma vcopGetItem_train_short {F : Type} (sg : ℕ → ℕ → ℕ) (cl it tl : ℕ)
    (tr : Option (F → RandomState → F × RandomState))
    (vd : List F) (idx : ℕ) (rs : RandomState)
    (h : vd.length < vcopTotalFrames cl it tl) :
    vcopGetItem sg cl it tl true tr (Except.ok vd) idx rs
      = Except.ok (SampleOut.empty, rs) := by
  simp [vcopGetItem, h]

/-- Evaluation-mode short-circuit of `vcopGetItem`: on a too-short video the
unguarded `randint` raises `ValueError`. -/
lemma vcopGetItem_eval_short {F : Type} (sg : ℕ → ℕ → ℕ) (cl it tl : ℕ)
    (tr : Option (F → RandomState → F × RandomState))
    (vd : List F) (idx : ℕ) (rs : RandomState)
    (h : vd.length < vcopTotalFrames cl it tl) :
    vcopGetItem sg cl it tl false tr (Except.ok vd) idx rs
      = Except.error PyError.valueError := by
  rw [vcopGetItem_eval_ok]
  have hr : randint (seedState sg idx) 0
      ((vd.length : ℤ) - (vcopTotalFrames cl it tl : ℕ)) = Except.error PyError.valueError := by
    simp only [randint]
    rw [if_pos (by omega)]
  rw [hr]

/-- With arity zero, unpacking the empty shuffled `zip` raises. -/
lemma vcopAfterStart_zero {F : Type} (sg : ℕ → ℕ → ℕ) (cl it : ℕ) (train : Bool)
    (tr : Option (F → RandomState → F × RandomState))
    (vd : List F) (idx : ℕ) (tsZ : ℤ) (rs1 : RandomState) :
    vcopAfterStart sg cl it 0 train tr vd idx tsZ rs1
      = Except.error PyError.valueError := by
  cases train <;> rfl

/-- C6: for every successful sample (any mode, any shuffle outcome) the
returned order labels are a permutation of `[0, tupleLen)` and the clip in
each slot `k` is exactly the original window at temporal position
`orders[k]`, i.e. the one starting at `tupleStart + orders[k] * (clipLen +
interval)`. -/
theorem c6_pairing_invariant {F : Type} (sg : ℕ → ℕ → ℕ) (cl it tl : ℕ)
    (train : Bool) (vd : List F) (idx : ℕ) (rs rsOut : RandomState)
    (clips : List (List F)) (orders : List ℕ)
    (hsucc : vcopGetItem sg cl it tl train none (Except.ok vd) idx rs
      = Except.ok (SampleOut.tuple clips orders, rsOut)) :
    orders.Perm (List.range tl)
    ∧ ∃ ts, ts ≤ vd.length - vcopTotalFrames cl it tl
      ∧ ∀ k, k < tl → clips.getD k []
          = (vd.drop (ts + orders.getD k 0 * (cl + it))).take cl := by
  by_cases hl : vd.length < vcopTotalFrames cl it tl
  · exfalso
    cases train with
    | false =>
      rw [vcopGetItem_eval_short sg cl it tl none vd idx rs hl] at hsucc
      exact Except.noConfusion hsucc
    | true =>
      rw [vcopGetItem_train_short sg cl it tl none vd idx rs hl] at hsucc
      simp at hsucc
  · have h0 : (0:ℤ) ≤ (vd.length : ℤ) - (vcopTotalFrames cl it tl : ℕ) := by omega
    obtain ⟨v, rs1, hre, hv0, hvhi, hvt⟩ :=
      randint_nonneg_spec (if train then rs else seedState sg idx) _ h0
    rw [vcopGetItem_ok_start sg cl it tl train none vd idx rs v rs1 hl hre] at hsucc
    rcases Nat.eq_zero_or_pos tl with htl0 | htl
    · exfalso
      subst htl0
      rw [vcopAfterStart_zero sg cl it train none vd idx v rs1] at hsucc
      exact Except.noConfusion hsucc
    · obtain ⟨clips2, orders2, rsOut2, hafter, hclen, hoperm, hpair⟩ :=
        vcopAfterStart_spec sg cl it tl train vd idx v rs1 htl
      rw [hafter] at hsucc
      simp only [Except.ok.injEq, Prod.mk.injEq, SampleOut.tuple.injEq] at hsucc
      obtain ⟨⟨hc, ho⟩, _⟩ := hsucc
      subst hc
      subst ho
      exact ⟨hoperm, v.toNat, by omega, hpair⟩

/-- Witness for C6: a concrete evaluation-mode sample of a 40-frame video
under `(8, 4, 3)`; the sampler returns the windows `[24..32)`, `[12..20)`,
`[0..8)` with labels `[2, 1, 0]`, and the theorem recovers the pairing. -/
theorem c6_pairing_invariant_witness :
    vcopGetItem sgAdd 8 4 3 false none (Except.ok (List.range 40)) 0 idStream
      = Except.ok (SampleOut.tuple
          [[24, 25, 26, 27, 28, 29, 30, 31],
           [12, 13, 14, 15, 16, 17, 18, 19],
           [0, 1, 2, 3, 4, 5, 6, 7]] [2, 1, 0], ⟨sgAdd 0, 2⟩)
    ∧ (([2, 1, 0] : List ℕ).Perm (List.range 3)
      ∧ ∃ ts, ts ≤ (List.range 40).length - vcopTotalFrames 8 4 3
        ∧ ∀ k, k < 3 →
            ([[24, 25, 26, 27, 28, 29, 30, 31],
              [12, 13, 14, 15, 16, 17, 18, 19],
              [0, 1, 2, 3, 4, 5, 6, 7]] : List (List ℕ)).getD k []
              = ((List.range 40).drop (ts + ([2, 1, 0] : List ℕ).getD k 0 * (8 + 4))).take 8) :=
  ⟨rfl, c6_pairing_invariant sgAdd 8 4 3 false (List.range 40) 0 idStream
    ⟨sgAdd 0, 2⟩ _ _ rfl⟩

/-- Every frame of a clip is transformed under the identical state seeded
with the clip's seed `s`, whatever states the transform itself produced. -/
lemma applySeeded_fst {F : Type} (sg : ℕ → ℕ → ℕ)
    (tr : F → RandomState → F × RandomState) (s : ℕ) :
    ∀ (clip : List F) (rs : RandomState),
      (applySeeded sg tr s clip rs).1
        = clip.map (fun fr => (tr fr (seedState sg s)).1) := by
  intro clip
  induction clip with
  | nil => intro rs; rfl
  | cons fr rest ih =>
    intro rs
    simp [applySeeded, ih]

/-- C8: the clip-tuple transform block draws one fresh seed per clip and
re-seeds before each frame, so every clip of the output is its input clip
mapped under one single seeded state; distinct clips draw separate seeds
and can receive different augmentations, exhibited by a recording transform
on two identical single-frame clips producing different outputs. -/
theorem c8_per_clip_transform_consistency {F : Type} (sg : ℕ → ℕ → ℕ)
    (tr : F → RandomState → F × RandomState) (clips : List (List F))
    (rs : RandomState) :
    ((transformTuple sg tr clips rs).1.length = clips.length)
    ∧ (∀ i, i < clips.length → ∃ s,
        (transformTuple sg tr clips rs).1.getD i []
          = (clips.getD i []).map (fun fr => (tr fr (seedState sg s)).1))
    ∧ ((transformTuple sgShift recTr [[10], [10]] idStream).1.getD 0 []
        ≠ (transformTuple sgShift recTr [[10], [10]] idStream).1.getD 1 []) := by
  have hlen : ∀ (cs : List (List F)) (r : RandomState),
      (transformTuple sg tr cs r).1.length = cs.length := by
    intro cs
    induction cs with
    | nil => intro r; rfl
    | cons c cs2 ih =>
      intro r
      simp [transformTuple, ih]
  have hmain : ∀ (cs : List (List F)) (r : RandomState) (i : ℕ), i < cs.length →
      ∃ s, (transformTuple sg tr cs r).1.getD i []
        = (cs.getD i []).map (fun fr => (tr fr (seedState sg s)).1) := by
    intro cs
    induction cs with
    | nil =>
      intro r i hi
      simp at hi
    | cons c cs2 ih =>
      intro r i hi
      cases i with
      | zero =>
        refine ⟨(randomFloat r).1, ?_⟩
        simp only [transformTuple, transformClip, List.getD_cons_zero]
        exact applySeeded_fst sg tr (randomFloat r).1 c (randomFloat r).2
      | succ k =>
        have hk : k < cs2.length := by simpa using hi
        obtain ⟨s, hs⟩ := ih (transformClip sg tr c r).2 k hk
        refine ⟨s, ?_⟩
        simpa [transformTuple] using hs
  exact ⟨hlen clips rs, hmain clips rs, by decide⟩

/-- Witness for C8: the general statement instantiated at the recording
transform over two identical single-frame clips. -/
theorem c8_per_clip_transform_consistency_witness :
    ((transformTuple sgShift recTr [[10], [10]] idStream).1.length
        = ([[10], [10]] : List (List ℕ)).length)
    ∧ (∀ i, i < ([[10], [10]] : List (List ℕ)).length → ∃ s,
        (transformTuple sgShift recTr [[10], [10]] idStream).1.getD i []
          = (([[10], [10]] : List (List ℕ)).getD i []).map
              (fun fr => (recTr fr (seedState sgShift s)).1))
    ∧ ((transformTuple sgShift recTr [[10], [10]] idStream).1.getD 0 []
        ≠ (transformTuple sgShift recTr [[10], [10]] idStream).1.getD 1 []) :=
  c8_per_clip_transform_consistency sgShift recTr [[10], [10]] idStream
